import Mathlib

/-!
Verification of the color reconciliation / SVG normalization core of the
Png2Svg repository (`src/cpp/src/vectorizer.cpp`).

Embedding conventions:
* C++ `float`/`double` arithmetic is modelled by exact rational arithmetic
  (`ℚ`).  All concrete inputs used in counterexamples and witnesses involve
  only values (such as 0.5) that are exactly representable, so the model and
  the binary agree on them.
* C++ exceptions (`std::stoi` / `std::stof` throwing, `std::string::substr`
  out-of-range) are modelled by `Option`: `none` means the C++ function
  throws.
* `std::string` is modelled by Lean `String` / `List Char`; the hex strings
  involved are pure ASCII, where C++ byte order and Lean `Char` order agree.
-/

namespace Png2Svg

/-! ### Model of `std::stoi(s, nullptr, 16)` (used by `Vectorizer::hexToRgb`)

`std::stoi` with base 16 behaves like `strtol`: it skips leading whitespace,
accepts an optional sign, an optional `0x`/`0X` prefix (only when followed by
a hex digit), then consumes the longest run of hex digits.  It throws
`std::invalid_argument` when no digits are consumed.  (Overflow cannot occur
here: `hexToRgb` only ever passes substrings of length at most 2.) -/

/-- `isspace` in the default locale. -/
def isCSpace (c : Char) : Bool :=
  c = ' ' || c = '\t' || c = '\n' || c = '\x0b' || c = '\x0c' || c = '\r'

/-- Value of a hex digit, `none` for non-hex characters. -/
def hexVal? (c : Char) : Option Nat :=
  if '0' ≤ c ∧ c ≤ '9' then some (c.toNat - '0'.toNat)
  else if 'a' ≤ c ∧ c ≤ 'f' then some (c.toNat - 'a'.toNat + 10)
  else if 'A' ≤ c ∧ c ≤ 'F' then some (c.toNat - 'A'.toNat + 10)
  else none

/-- Accumulate the longest leading run of hex digits. -/
def hexRun : List Char → Nat → Nat
  | [], acc => acc
  | c :: cs, acc =>
    match hexVal? c with
    | some v => hexRun cs (16 * acc + v)
    | none => acc

/-- Unsigned part of `strtol(·, ·, 16)` after sign handling:
optional `0x` prefix (consumed only when followed by a hex digit), then the
longest hex-digit run; `none` when no digit is consumed. -/
def parse16u (l : List Char) : Option Nat :=
  let l2 : List Char :=
    match l with
    | c0 :: c :: t =>
      if c0 = '0' ∧ (c = 'x' ∨ c = 'X') ∧ (t.head?.bind hexVal?).isSome then t
      else c0 :: c :: t
    | _ => l
  match l2 with
  | c :: _ => if (hexVal? c).isSome then some (hexRun l2 0) else none
  | [] => none

/-- `std::stoi(s, nullptr, 16)`; `none` models `std::invalid_argument`. -/
def stoi16 (l : List Char) : Option Int :=
  match l.dropWhile isCSpace with
  | [] => none
  | c :: t =>
    if c = '-' then (parse16u t).map (fun n => -(n : Int))
    else if c = '+' then (parse16u t).map (fun n => (n : Int))
    else (parse16u (c :: t)).map (fun n => (n : Int))

/-- `std::string::substr(pos, len)`: throws (`none`) when `pos > size()`,
otherwise yields at most `len` characters starting at `pos`. -/
def cppSubstr (l : List Char) (pos len : Nat) : Option (List Char) :=
  if pos ≤ l.length then some ((l.drop pos).take len) else none

/-! ### `Vectorizer::hexToRgb` (vectorizer.cpp lines 44-67) -/

/-- The digit part of the input: the leading `'#'` (if any) removed.
(For the empty string, C++ `hex[0]` reads the terminating NUL, which is not
`'#'`, so nothing is stripped.) -/
def stripHash (l : List Char) : List Char :=
  match l with
  | '#' :: t => t
  | _ => l

/-- 3-character hex codes are expanded by duplicating every character. -/
def expand3 (l : List Char) : List Char :=
  l.foldr (fun c acc => c :: c :: acc) []

/-- The three `substr`/`stoi` channel reads of `hexToRgb`, in C++ evaluation
order (any escaping exception is `none`). -/
def hexToRgbCore (h : List Char) : Option (Int × Int × Int) := do
  let s1 ← cppSubstr h 0 2
  let r ← stoi16 s1
  let s2 ← cppSubstr h 2 2
  let g ← stoi16 s2
  let s3 ← cppSubstr h 4 2
  let b ← stoi16 s3
  return (r, g, b)

/-- `Vectorizer::hexToRgb` on the character list; `none` models an escaping
exception (from `stoi` or `substr`). -/
def hexToRgbChars (s : List Char) : Option (Int × Int × Int) :=
  hexToRgbCore
    (if (stripHash s).length = 3 then expand3 (stripHash s) else stripHash s)

/-- `Vectorizer::hexToRgb`. -/
def hexToRgb (s : String) : Option (Int × Int × Int) :=
  hexToRgbChars s.data

/-! ### `Vectorizer::rgbToHex` (lines 69-73)

`snprintf(buffer, 8, "#%02x%02x%02x", r, g, b)`: each channel is converted to
`unsigned int` (i.e. reduced mod 2^32), printed in lower-case hex padded to
at least two digits, and the result is truncated to 7 characters (buffer of
size 8 including the terminating NUL).  For channels in [0,255] this is just
`#rrggbb`. -/

/-- Lower-case hex digit for `n < 16`. -/
def hexDigitChar (n : Nat) : Char :=
  if n < 10 then Char.ofNat ('0'.toNat + n) else Char.ofNat ('a'.toNat + (n - 10))

/-- Big-endian hex digits, fuel-based so that the kernel can evaluate it
(one digit is produced per fuel unit; `hexDigits` supplies ample fuel). -/
def hexDigitsF : Nat → Nat → List Char
  | 0, _ => []
  | fuel + 1, n =>
    if n < 16 then [hexDigitChar n]
    else hexDigitsF fuel (n / 16) ++ [hexDigitChar (n % 16)]

/-- Big-endian hex digits of a natural number (at least one digit). -/
def hexDigits (n : Nat) : List Char := hexDigitsF (n + 1) n

/-- `%02x` of one `int` channel: convert to unsigned 32-bit, hex digits,
left-padded with `'0'` to width 2. -/
def hex2 (v : Int) : List Char :=
  let ds := hexDigits (v % 4294967296).toNat
  if ds.length = 1 then '0' :: ds else ds

/-- `Vectorizer::rgbToHex`. -/
def rgbToHex (r g b : Int) : String :=
  String.mk (('#' :: (hex2 r ++ hex2 g ++ hex2 b)).take 7)

/-! ### Exact fractions carrying the `float` values of `getSolid`

Opacity values flow through `std::stof`, `combineOpacity`, `rgbaToHex` and
`std::to_string`.  Inside `getSolid` they are carried by exact (unnormalized)
fractions with a positive denominator, which — unlike Mathlib's `ℚ`, whose
normalization is not kernel-reducible — evaluate inside the kernel.  This is
an exact model of the `float` computation only where that computation incurs
no rounding; on every concrete `getSolid` input appearing below the values
involved (`0.5`, `0.75`, sums/products of small dyadics within 24-bit
precision) are binary32-exact, so the fractions coincide with the program's
floats there.  Rounding itself is modelled separately (`rnd`,
`combineOpacityF32` below) where a claim depends on it.  Comparisons (`blt`,
`beq`) compare values by cross-multiplication. -/

structure Frac where
  num : Int
  den : Int

def Frac.ofInt (n : Int) : Frac := ⟨n, 1⟩

def Frac.add (x y : Frac) : Frac := ⟨x.num * y.den + y.num * x.den, x.den * y.den⟩

def Frac.sub (x y : Frac) : Frac := ⟨x.num * y.den - y.num * x.den, x.den * y.den⟩

def Frac.mul (x y : Frac) : Frac := ⟨x.num * y.num, x.den * y.den⟩

/-- Value equality (valid for positive denominators). -/
def Frac.beq (x y : Frac) : Bool := x.num * y.den == y.num * x.den

/-- Value strict order (valid for positive denominators). -/
def Frac.blt (x y : Frac) : Bool := x.num * y.den < y.num * x.den

/-! ### `Vectorizer::rgbaToHex` and `Vectorizer::combineOpacity` (79-89) -/

/-- The C++ `static_cast<int>` on a floating value: truncation toward zero
(`Int.div` truncates toward zero, which is exactly that for a positive
denominator). -/
def cppTrunc (x : Frac) : Int := Int.tdiv x.num x.den

/-- One blended channel of `rgbaToHex`: `a*channel + (1-a)*255`, cast to
`int`. -/
def blendChannel (a : Frac) (c : Int) : Int :=
  cppTrunc ((a.mul (Frac.ofInt c)).add (((Frac.ofInt 1).sub a).mul (Frac.ofInt 255)))

/-- `Vectorizer::rgbaToHex`: blend with a white background, then hex-encode. -/
def rgbaToHex (r g b : Int) (a : Frac) : String :=
  rgbToHex (blendChannel a r) (blendChannel a g) (blendChannel a b)

/-- `Vectorizer::combineOpacity`: `1 - (1-a)*(1-b)`, the exact value of the
expression.  The program computes it in `float`; this exact version is used
only on the concrete `getSolid` inputs below, whose values are binary32-exact,
and the rounding behaviour of the `float` computation is modelled by
`combineOpacityF32`. -/
def combineOpacity (a b : Frac) : Frac :=
  (Frac.ofInt 1).sub (((Frac.ofInt 1).sub a).mul ((Frac.ofInt 1).sub b))

/-! ### IEEE-754 binary32 rounding

`combineOpacity` takes and returns `float`; each of its three operations
(`1 - a`, the product, `1 - ·`) is correctly rounded to binary32 in
round-to-nearest, ties-to-even — the default x86 behaviour the program
compiles to.  `rhe` rounds a rational to the nearest integer with ties to
even, `rnd` rounds a rational to the nearest binary32 value (24-bit
significand, exponent clamped below at the subnormal scale `2^-149`; the
overflow range is irrelevant for values in `[0,1]`), and `combineOpacityF32`
is `combineOpacity` with every intermediate rounded — the float computation
exactly, for float-representable arguments. -/

/-- Round to the nearest integer, ties to even. -/
def rhe (x : ℚ) : ℤ :=
  if x - ⌊x⌋ < 1/2 then ⌊x⌋
  else if 1/2 < x - ⌊x⌋ then ⌊x⌋ + 1
  else if 2 ∣ ⌊x⌋ then ⌊x⌋ else ⌊x⌋ + 1

/-- Round a rational to binary32 (round-to-nearest, ties-to-even): scale so
that the significand becomes an integer in `[2^23, 2^24)` (or the subnormal
scale `2^-149`), round that integer with `rhe`, scale back. -/
def rnd (q : ℚ) : ℚ :=
  if q = 0 then 0
  else (rhe (q / 2 ^ max (-149) (Int.log 2 |q| - 23)) : ℚ) *
    2 ^ max (-149) (Int.log 2 |q| - 23)

/-- `Vectorizer::combineOpacity` as compiled: `1 - (1-a)*(1-b)` with each
`float` operation correctly rounded to binary32. -/
def combineOpacityF32 (a b : ℚ) : ℚ :=
  rnd (1 - rnd (rnd (1 - a) * rnd (1 - b)))

/-! ### Literal find/replace over character lists

Both `std::regex_replace` with a literal pattern and the manual
`find`/`replace` loop of `getSolid` (which advances the cursor past each
replacement) perform leftmost, non-overlapping replacement of every
occurrence; `replaceAll` models exactly that. -/

/-- Fuel-based worker: with fuel at least the list length the fuel never
runs out, since every step consumes at least one character. -/
def replaceAllF (pat rep : List Char) : Nat → List Char → List Char
  | _, [] => []
  | 0, l => l
  | fuel + 1, c :: cs =>
    if pat ≠ [] ∧ pat.isPrefixOf (c :: cs) then
      rep ++ replaceAllF pat rep fuel ((c :: cs).drop pat.length)
    else
      c :: replaceAllF pat rep fuel cs

def replaceAll (pat rep l : List Char) : List Char :=
  replaceAllF pat rep l.length l

/-! ### The `fill-opacity` scan of `getSolid` (vectorizer.cpp lines 97-106)

`regex_search` with pattern `fill-opacity="([\d\.]+)"` finds, left to right,
every position where the literal `fill-opacity="` is followed by a non-empty
run of `[0-9.]` characters and a closing `"` (the regex engine's greedy run
must end exactly at a non-run character, which the pattern requires to be
`"`); scanning resumes after the full match (`matches.suffix()`). -/

/-- The character class `[\d\.]` of the opacity value regex. -/
def isDigitDot (c : Char) : Bool := ('0' ≤ c ∧ c ≤ '9') || c = '.'

/-- The literal prefix of the opacity attribute pattern. -/
def opacityPref : List Char := "fill-opacity=\"".data

/-- The digit/dot run right after position `p + |opacityPref|`. -/
def runAt (l : List Char) : List Char :=
  (l.drop opacityPref.length).takeWhile isDigitDot

/-- Fuel-based worker for the scan (a match consumes the whole match, a
failed position consumes one character; fuel = length always suffices). -/
def scanRunsF : Nat → List Char → List (List Char)
  | _, [] => []
  | 0, _ => []
  | fuel + 1, c :: cs =>
    if opacityPref.isPrefixOf (c :: cs) then
      if runAt (c :: cs) ≠ [] ∧
          (((c :: cs).drop opacityPref.length).drop (runAt (c :: cs)).length).head? =
            some '"' then
        runAt (c :: cs) ::
          scanRunsF fuel (((c :: cs).drop opacityPref.length).drop ((runAt (c :: cs)).length + 1))
      else scanRunsF fuel cs
    else scanRunsF fuel cs

/-- All captured opacity value strings, in document order. -/
def scanRuns (l : List Char) : List (List Char) := scanRunsF l.length l

/-! ### `std::stof` on a `[\d\.]+` run, and `std::to_string(float)`

Modelled over exact rationals: `stofQ` parses the leading digits, then a
fractional part after an optional dot (`std::stof` consumes the longest
valid prefix and throws `std::invalid_argument` when no digit is consumed,
e.g. on `"."`).  `std::to_string` formats with `%f`, i.e. fixed six decimal
places; `toStringF` renders the exact rational that way (rounding half up;
all values exercised concretely are exact, where no rounding occurs). -/

def isDigit (c : Char) : Bool := '0' ≤ c ∧ c ≤ '9'

def digitsToNat (l : List Char) : Nat := l.foldl (fun a c => 10 * a + (c.toNat - 48)) 0

def stofQ (l : List Char) : Option Frac :=
  let ip := l.takeWhile isDigit
  let fp : List Char :=
    match l.drop ip.length with
    | '.' :: t => t.takeWhile isDigit
    | _ => []
  if ip = [] ∧ fp = [] then none
  else
    some ⟨(digitsToNat ip : Int) * (10 ^ fp.length : Nat) + (digitsToNat fp : Int),
      ((10 ^ fp.length : Nat) : Int)⟩

/-- Fuel-based decimal digit printer (see `hexDigitsF`). -/
def decDigitsF : Nat → Nat → List Char
  | 0, _ => []
  | fuel + 1, n =>
    if n < 10 then [Char.ofNat (48 + n)]
    else decDigitsF fuel (n / 10) ++ [Char.ofNat (48 + n % 10)]

/-- Big-endian decimal digits of a natural number. -/
def decDigits (n : Nat) : List Char := decDigitsF (n + 1) n

/-- The value scaled by 10^6 and rounded to the nearest integer
(`⌊x·10⁶ + 1/2⌋`, computed with floor division). -/
def scaled6 (x : Frac) : Nat :=
  (Int.fdiv (2000000 * x.num + x.den) (2 * x.den)).toNat

/-- `std::to_string` of a (non-negative) float value: `%f`, six decimals. -/
def toStringF (x : Frac) : List Char :=
  decDigits (scaled6 x / 1000000) ++ '.' ::
    (List.replicate (6 - (decDigits (scaled6 x % 1000000)).length) '0' ++
      decDigits (scaled6 x % 1000000))

/-! ### `Vectorizer::getSolid` (lines 91-150) -/

/-- `std::set<float>` collection plus descending sort: insert keeping the
list strictly descending (by value) and duplicate-free. -/
def insDescU (x : Frac) : List Frac → List Frac
  | [] => [x]
  | y :: t =>
    if Frac.blt y x then x :: y :: t
    else if Frac.beq x y then y :: t
    else y :: insDescU x t

/-- The descending-sorted distinct opacities (`sortedOpacities`). -/
def sortDescU (l : List Frac) : List Frac := l.foldl (fun acc x => insDescU x acc) []

/-- Pair each sorted opacity with its true opacity: the value combined (via
`combineOpacity`, left fold in loop order) with every strictly smaller
distinct opacity (the entries after it in the descending list). -/
def withTrue : List Frac → List (Frac × Frac)
  | [] => []
  | v :: rest => (v, rest.foldl combineOpacity v) :: withTrue rest

/-- `oldAttr`: built with `std::to_string`'s six-decimal formatting. -/
def oldAttrOf (v : Frac) : List Char :=
  "fill-opacity=\"".data ++ toStringF v ++ ['"']

/-- `newAttr`: solid fill, plus matching stroke when requested. -/
def newAttrOf (hexColor : String) (stroke : Bool) : List Char :=
  if stroke then
    ("fill=\"" ++ hexColor ++ "\" stroke-width=\"1\" stroke=\"" ++ hexColor ++ "\"").data
  else
    ("fill=\"" ++ hexColor ++ "\"").data

/-- The literal pattern of the `fill="black"` removal (line 95). -/
def blackPat : List Char := "fill=\"black\"".data

/-- The literal pattern of the `stroke="none"` removal (line 147): note the
leading space. -/
def strokeNonePat : List Char := " stroke=\"none\"".data

/-- `getSolid` from line 97 on, applied to the document with `fill="black"`
already removed.  `none` models an exception escaping from `std::stof`
during the scan. -/
def getSolidAfter (r0 : List Char) (stroke : Bool) : Option (List Char) :=
  match (scanRuns r0).mapM stofQ with
  | none => none
  | some vals =>
    if (sortDescU vals).isEmpty then some r0
    else
      some (replaceAll strokeNonePat []
        ((withTrue (sortDescU vals)).foldl
          (fun acc p =>
            replaceAll (oldAttrOf p.1) (newAttrOf (rgbaToHex 0 0 0 p.2) stroke) acc)
          r0))

/-- `Vectorizer::getSolid` on character lists. -/
def getSolidChars (svg : List Char) (stroke : Bool) : Option (List Char) :=
  getSolidAfter (replaceAll blackPat [] svg) stroke

/-- `Vectorizer::getSolid`. -/
def getSolid (svg : String) (stroke : Bool) : Option String :=
  (getSolidChars svg.data stroke).map String.mk

/-! ### `Vectorizer::findNearestColor` (lines 191-213)

The C++ code compares `std::sqrt` of the integer squared distances in
`double` with strict `<`.  For squared distances of at most `3·510²`, the
gaps between square roots of distinct integers are far larger than the
`double` rounding error, so both the minimality and the tie behavior agree
with comparing the exact squared distances, which is what the model does. -/

/-- Squared Euclidean RGB distance. -/
def distSq (a b : Int × Int × Int) : Int :=
  (a.1 - b.1) ^ 2 + (a.2.1 - b.2.1) ^ 2 + (a.2.2 - b.2.2) ^ 2

/-- `d < minDistance`, where `none` stands for the initial
`std::numeric_limits<double>::max()` (larger than any distance here). -/
def ltOpt (d : Int) : Option Int → Bool
  | none => true
  | some m => d < m

/-- The loop of `findNearestColor`: scan candidates, keeping the current
`minDistance` and `nearest`.  A candidate whose hex fails to parse makes the
whole call throw (`none`). -/
def fnLoop (t : Int × Int × Int) : List String → Option Int → String → Option String
  | [], _, nearest => some nearest
  | c :: cs, minD, nearest =>
    match hexToRgb c with
    | none => none
    | some cr =>
      if ltOpt (distSq t cr) minD then fnLoop t cs (some (distSq t cr)) c
      else fnLoop t cs minD nearest

/-- `Vectorizer::findNearestColor`; `nearest` is initialized to
`colorList[0]` (undefined behavior on an empty list, modelled `none`). -/
def findNearestColor (color : String) (colorList : List String) : Option String :=
  match hexToRgb color with
  | none => none
  | some t =>
    match colorList with
    | [] => none
    | c0 :: _ => fnLoop t colorList none c0

/-- Squared distance from target triple `t` to a candidate hex string
(junk value 0 for unparseable candidates, which never arise under the
theorems' hypotheses). -/
def dOf (t : Int × Int × Int) (c : String) : Int :=
  match hexToRgb c with
  | some cr => distSq t cr
  | none => 0

/-! ### `Vectorizer::optimizeSvg` (lines 333-341)

Two passes of `std::regex_replace`: first every maximal run of `\s+` (same
character class as `isCSpace`) is replaced by a single `' '`, then every
literal `"> <"` is replaced by `"><"`, scanning left to right and resuming
after each replacement. -/

/-- The whitespace-collapsing pass: each maximal whitespace run becomes one
space. -/
def collapseWs : List Char → List Char
  | [] => []
  | c :: cs =>
    if isCSpace c then ' ' :: collapseWs (cs.dropWhile isCSpace)
    else c :: collapseWs cs
termination_by l => l.length
decreasing_by
  · simp only [List.length_cons]
    exact Nat.lt_succ_of_le (List.Sublist.length_le (List.dropWhile_sublist _))
  · simp

/-- The `"> <"` → `"><"` pass (leftmost, non-overlapping, resuming after the
replacement). -/
def replGtLt : List Char → List Char
  | [] => []
  | [a] => [a]
  | [a, b] => [a, b]
  | a :: b :: c :: rest =>
    if a = '>' ∧ b = ' ' ∧ c = '<' then '>' :: '<' :: replGtLt rest
    else a :: replGtLt (b :: c :: rest)

/-- `Vectorizer::optimizeSvg`. -/
def optimizeSvg (s : String) : String :=
  String.mk (replGtLt (collapseWs s.data))

/-! ### `PixelData` and `Vectorizer::extractDominantColors` (lines 215-254) -/

/-- The decoded raster (`PixelData` of vectorizer.h): height × width ×
channels grid of 8-bit samples.  (The `mode` string is derived from
`channels` by `getPixels` and never read by the functions modelled here.) -/
structure PixelData where
  width : Nat
  height : Nat
  channels : Nat
  pixels : List (List (List Nat))

/-- `data.pixels[y][x][c]` (in-bounds in every C++ execution; the model
defaults to 0 out of bounds). -/
def pix (d : PixelData) (y x c : Nat) : Nat :=
  ((d.pixels.getD y []).getD x []).getD c 0

/-- `sampleStep = max(1, min(width, height) / 100)`. -/
def sampleStep (d : PixelData) : Nat := max 1 (min d.width d.height / 100)

/-- Channel quantization: `(v / 32) * 32`. -/
def quant (v : Nat) : Nat := v / 32 * 32

/-- `std::string` `operator<`: lexicographic byte comparison (for the
pure-ASCII hex keys involved, bytes coincide with `Char` values). -/
def strLtB : List Char → List Char → Bool
  | [], [] => false
  | [], _ :: _ => true
  | _ :: _, [] => false
  | x :: xs, y :: ys => if x < y then true else if y < x then false else strLtB xs ys

/-- One `colorCount[color]++` on the `std::map<std::string,int>`, modelled as
an association list kept strictly sorted by key — `std::map` iterates in
ascending key order. -/
def bumpColor (l : List (String × Nat)) (c : String) : List (String × Nat) :=
  match l with
  | [] => [(c, 1)]
  | (k, m) :: t =>
    if c = k then (k, m + 1) :: t
    else if strLtB c.data k.data then (c, 1) :: (k, m) :: t
    else (k, m) :: bumpColor t c

/-- The sampled-pixel counting loops of `extractDominantColors`: skip
transparent RGBA pixels, quantize, count by hex key. -/
def scanColors (d : PixelData) : List (String × Nat) :=
  ((List.range d.height).filter (fun y => y % sampleStep d == 0)).foldl
    (fun acc y =>
      ((List.range d.width).filter (fun x => x % sampleStep d == 0)).foldl
        (fun acc2 x =>
          if 3 ≤ d.channels then
            if d.channels = 4 ∧ pix d y x 3 < 128 then acc2
            else
              bumpColor acc2
                (rgbToHex (quant (pix d y x 0) : Nat) (quant (pix d y x 1) : Nat)
                  (quant (pix d y x 2) : Nat))
          else acc2)
        acc)
    []

/-- The `std::sort` call by descending count, instantiated at one concrete
conforming behaviour: an insertion sort, which is what libstdc++'s
`std::sort` performs on ranges shorter than 16 elements (every concrete
image below sorts 2 such entries), and which — being stable — keeps tied
entries in the `std::map`'s ascending-key order.  The C++ standard leaves
the tie order of `std::sort` unspecified, so the universal claim theorem is
stated against the relational postcondition `sortByCountPost` (any sorted
permutation), which `sortByCountDesc` is proved to satisfy
(`sortByCountDesc_post`); only the concrete small-range counterexamples rely
on this instantiation. -/
def insByCount (p : String × Nat) : List (String × Nat) → List (String × Nat)
  | [] => [p]
  | q :: t => if q.2 ≤ p.2 then p :: q :: t else q :: insByCount p t

def sortByCountDesc : List (String × Nat) → List (String × Nat)
  | [] => []
  | p :: t => insByCount p (sortByCountDesc t)

/-- The postcondition the C++ standard guarantees for the `std::sort` call of
`extractDominantColors` (comparator `a.second > b.second`): the output is a
permutation of the input that is non-increasing in the count; the relative
order of tied entries is unspecified. -/
def sortByCountPost (l r : List (String × Nat)) : Prop :=
  r.Perm l ∧ r.Pairwise (fun p q => q.2 ≤ p.2)

/-- `Vectorizer::extractDominantColors`: top `numColors` quantized colors by
descending frequency (with `std::sort` instantiated at the libstdc++
small-range behaviour, see `insByCount`). -/
def extractDominantColors (d : PixelData) (numColors : Nat) : List String :=
  ((sortByCountDesc (scanColors d)).take numColors).map Prod.fst

/-- The results `extractDominantColors` may return under the standard's
unspecified tie order: the first `numColors` keys of some conforming sort of
the scan counts.  The compiled program's actual output is one of these
(`extractsDominant_self`). -/
def extractsDominant (d : PixelData) (numColors : Nat) (res : List String) : Prop :=
  ∃ r, sortByCountPost (scanColors d) r ∧ res = (r.take numColors).map Prod.fst

/-- The count of a quantized color in the sampled scan. -/
def countOf (d : PixelData) (c : String) : Nat :=
  ((scanColors d).lookup c).getD 0

/-- All pixel samples are 8-bit values (true of every buffer produced by the
image decoder). -/
def boundedPixels (d : PixelData) : Prop :=
  ∀ row ∈ d.pixels, ∀ px ∈ row, ∀ v ∈ px, v < 256

/-- Modelled from the spec's words (§4.4 step 5: "ties broken by the order
colors were first encountered during the scan") for comparison with the
implementation: the same counting, but keyed in first-encounter (insertion)
order. -/
def bumpEnc (l : List (String × Nat)) (c : String) : List (String × Nat) :=
  if l.any (fun p => p.1 == c) then
    l.map (fun p => if p.1 == c then (p.1, p.2 + 1) else p)
  else l ++ [(c, 1)]

/-- The scan of `scanColors` with first-encounter bookkeeping. -/
def encScanColors (d : PixelData) : List (String × Nat) :=
  ((List.range d.height).filter (fun y => y % sampleStep d == 0)).foldl
    (fun acc y =>
      ((List.range d.width).filter (fun x => x % sampleStep d == 0)).foldl
        (fun acc2 x =>
          if 3 ≤ d.channels then
            if d.channels = 4 ∧ pix d y x 3 < 128 then acc2
            else
              bumpEnc acc2
                (rgbToHex (quant (pix d y x 0) : Nat) (quant (pix d y x 1) : Nat)
                  (quant (pix d y x 2) : Nat))
          else acc2)
        acc)
    []

/-- The extraction the spec's tie-break sentence describes: a stable sort by
descending count over first-encounter order (here `sortByCountDesc`, an
insertion sort, which is stable — exactly the "stable sort over insertion
order" the sentence asks for). -/
def specExtractDominant (d : PixelData) (numColors : Nat) : List String :=
  ((sortByCountDesc (encScanColors d)).take numColors).map Prod.fst

/-! ### `Vectorizer::inspectImage` (lines 471-527), from the decoded pixels on

`inspectImage` first loads the image from disk (`getPixels`); everything
after that load is a pure function of the `PixelData`, modelled here. -/

structure VectorizationOption where
  step : Nat
  colors : List String
deriving DecidableEq

/-- Lines 490-498: drop the most frequent color when it is near-white
(all channels > 200) and the palette has more than one entry.  `none` models
an exception from `hexToRgb` (impossible for palettes produced by
`extractDominantColors`). -/
def dropWhiteStep : List String → Option (List String)
  | [] => none
  | first :: rest =>
    (hexToRgb first).map fun t =>
      if 200 < t.1 ∧ 200 < t.2.1 ∧ 200 < t.2.2 ∧ rest ≠ [] then rest
      else first :: rest

/-- Lines 500-509: black-and-white classification from the least frequent
remaining color (all channels < 50). -/
def bwCheck (palette : List String) : Option Bool :=
  match palette.getLast? with
  | none => some false
  | some c => (hexToRgb c).map (fun t => decide (t.1 < 50 ∧ t.2.1 < 50 ∧ t.2.2 < 50))

/-- `Vectorizer::inspectImage` after `getPixels`. -/
def inspectImageFromData (d : PixelData) : Option (List VectorizationOption) :=
  match extractDominantColors d 5 with
  | [] => some [⟨1, ["#000000"]⟩]
  | first :: rest =>
    match dropWhiteStep (first :: rest) with
    | none => none
    | some p2 =>
      match bwCheck p2 with
      | none => none
      | some bw =>
        if bw then some [⟨1, ["#000000"]⟩]
        else some ((List.range' 1 (min 4 p2.length)).map (fun i => ⟨i, p2.take i⟩))

/-! ### Predicates used by the verification -/

/-- Invariant established by the whitespace pass of `optimizeSvg`: every
whitespace character is a plain space and no two spaces are adjacent. -/
def goodWs (l : List Char) : Prop :=
  (∀ c ∈ l, isCSpace c = true → c = ' ') ∧
    l.Chain' (fun a b => ¬(a = ' ' ∧ b = ' '))

/-- The invariant key order of the `std::map` model. -/
def KeySorted (l : List (String × Nat)) : Prop :=
  l.Pairwise (fun p q => strLtB p.1.data q.1.data = true)

/-- Being a quantized color key: the hex encoding of three in-range channel
values that are multiples of 32. -/
def PQuant (c : String) : Prop :=
  ∃ r g b : Nat, r < 256 ∧ g < 256 ∧ b < 256 ∧ 32 ∣ r ∧ 32 ∣ g ∧ 32 ∣ b ∧
    c = rgbToHex (r : Int) (g : Int) (b : Int)

/-! ### Helper lemmas: hex digits and `stoi16` on two-digit strings -/

theorem hexVal_hexDigitChar : ∀ n < 16, hexVal? (hexDigitChar n) = some n := by decide

theorem hexDigitChar_props : ∀ n < 16, isCSpace (hexDigitChar n) = false ∧
    hexDigitChar n ≠ '-' ∧ hexDigitChar n ≠ '+' ∧ hexDigitChar n ≠ 'x' ∧
    hexDigitChar n ≠ 'X' := by decide

theorem hexDigitChar_ne_zero : ∀ n, 1 ≤ n → n < 16 → hexDigitChar n ≠ '0' := by decide

theorem hexDigitsF_small (fuel n : Nat) (hf : 0 < fuel) (hn : n < 16) :
    hexDigitsF fuel n = [hexDigitChar n] := by
  cases fuel with
  | zero => omega
  | succ f => simp [hexDigitsF, hn]

theorem hex2_eq_digits (u : Nat) (hu : u < 256) :
    hex2 (u : Int) = [hexDigitChar (u / 16), hexDigitChar (u % 16)] := by
  have h32 : ((u : Int) % 4294967296) = (u : Int) :=
    Int.emod_eq_of_lt (by positivity) (by omega)
  have htn : ((u : Int)).toNat = u := Int.toNat_natCast u
  unfold hex2 hexDigits
  rw [h32, htn]
  by_cases h16 : u < 16
  · have h1 : hexDigitsF (u + 1) u = [hexDigitChar u] :=
      hexDigitsF_small (u + 1) u (by omega) h16
    have hu16 : u / 16 = 0 := Nat.div_eq_of_lt h16
    have hm16 : u % 16 = u := Nat.mod_eq_of_lt h16
    simp [h1, hu16, hm16, hexDigitChar]
  · have hq : u / 16 < 16 := by omega
    have h1 : hexDigitsF (u + 1) u = [hexDigitChar (u / 16), hexDigitChar (u % 16)] := by
      rw [hexDigitsF, if_neg h16, hexDigitsF_small u (u / 16) (by omega) hq]
      rfl
    simp [h1]

theorem stoi16_two_digits (a b : Nat) (ha : a < 16) (hb : b < 16) :
    stoi16 [hexDigitChar a, hexDigitChar b] = some ((16 * a + b : Nat) : Int) := by
  obtain ⟨hsp, hm, hp, hx, hX⟩ := hexDigitChar_props a ha
  obtain ⟨hsp', _, _, hx', hX'⟩ := hexDigitChar_props b hb
  have hva := hexVal_hexDigitChar a ha
  have hvb := hexVal_hexDigitChar b hb
  have hdrop : List.dropWhile isCSpace [hexDigitChar a, hexDigitChar b] =
      [hexDigitChar a, hexDigitChar b] := by
    simp [List.dropWhile, hsp]
  have hpre : parse16u [hexDigitChar a, hexDigitChar b] = some (16 * a + b) := by
    unfold parse16u
    have hnotpre : ¬(hexDigitChar a = '0' ∧
        (hexDigitChar b = 'x' ∨ hexDigitChar b = 'X') ∧
        (([] : List Char).head?.bind hexVal?).isSome) := by
      rintro ⟨-, hor, -⟩
      rcases hor with h | h
      · exact hx' h
      · exact hX' h
    simp only [if_neg hnotpre]
    simp [hva, hvb, hexRun]
  unfold stoi16
  rw [hdrop]
  simp [hm, hp, hpre]

theorem stoi16_hex2 (v : Int) (h0 : 0 ≤ v) (h1 : v ≤ 255) :
    stoi16 (hex2 v) = some v ∧ (hex2 v).length = 2 := by
  obtain ⟨u, rfl⟩ : ∃ u : Nat, v = (u : Int) := ⟨v.toNat, (Int.toNat_of_nonneg h0).symm⟩
  have hu : u < 256 := by exact_mod_cast by omega
  rw [hex2_eq_digits u hu]
  refine ⟨?_, rfl⟩
  rw [stoi16_two_digits (u / 16) (u % 16) (by omega) (by omega)]
  congr 1
  omega

/-! ### Theorems for the claims on `hexToRgb` / `rgbToHex` / `combineOpacity` -/

/-- Round-trip helper, shared by the round-trip claim and the dominant-color
properties. -/
theorem hexToRgb_rgbToHex_aux (r g b : Int)
    (hr : 0 ≤ r ∧ r ≤ 255) (hg : 0 ≤ g ∧ g ≤ 255) (hb : 0 ≤ b ∧ b ≤ 255) :
    hexToRgb (rgbToHex r g b) = some (r, g, b) := by
  obtain ⟨hr2, hrlen⟩ := stoi16_hex2 r hr.1 hr.2
  obtain ⟨hg2, hglen⟩ := stoi16_hex2 g hg.1 hg.2
  obtain ⟨hb2, hblen⟩ := stoi16_hex2 b hb.1 hb.2
  have hlen : ('#' :: (hex2 r ++ hex2 g ++ hex2 b)).length = 7 := by
    simp [hrlen, hglen, hblen]
  have htake : ('#' :: (hex2 r ++ hex2 g ++ hex2 b)).take 7 =
      '#' :: (hex2 r ++ hex2 g ++ hex2 b) :=
    List.take_of_length_le (by omega)
  unfold hexToRgb rgbToHex
  rw [htake]
  show hexToRgbChars ('#' :: (hex2 r ++ hex2 g ++ hex2 b)) = some (r, g, b)
  have hstrip : stripHash ('#' :: (hex2 r ++ hex2 g ++ hex2 b)) =
      hex2 r ++ hex2 g ++ hex2 b := rfl
  have hlen6 : (hex2 r ++ hex2 g ++ hex2 b).length = 6 := by
    simp [hrlen, hglen, hblen]
  unfold hexToRgbChars
  have htk : (hex2 r ++ hex2 g ++ hex2 b).take 2 = hex2 r := by
    rw [List.append_assoc]
    rw [← hrlen, List.take_left]
  have hd2 : (hex2 r ++ hex2 g ++ hex2 b).drop 2 = hex2 g ++ hex2 b := by
    rw [List.append_assoc]
    rw [← hrlen, List.drop_left]
  have htk2 : (hex2 g ++ hex2 b).take 2 = hex2 g := by
    rw [← hglen, List.take_left]
  have hd4 : (hex2 r ++ hex2 g ++ hex2 b).drop 4 = hex2 b := by
    have : (4 : Nat) = 2 + 2 := rfl
    rw [this, ← List.drop_drop, hd2, ← hglen, List.drop_left]
  rw [hstrip]
  rw [if_neg (by omega)]
  unfold hexToRgbCore
  have hsub0 : cppSubstr (hex2 r ++ hex2 g ++ hex2 b) 0 2 = some (hex2 r) := by
    unfold cppSubstr
    rw [if_pos (by omega), List.drop_zero, htk]
  have hsub2 : cppSubstr (hex2 r ++ hex2 g ++ hex2 b) 2 2 = some (hex2 g) := by
    unfold cppSubstr
    rw [if_pos (by omega), hd2, htk2]
  have hsub4 : cppSubstr (hex2 r ++ hex2 g ++ hex2 b) 4 2 = some (hex2 b) := by
    unfold cppSubstr
    rw [if_pos (by omega), hd4]
    rw [List.take_of_length_le (by omega)]
  simp only [List.append_assoc] at hsub0 hsub2 hsub4
  simp [hsub0, hsub2, hsub4, hr2, hg2, hb2]

/-- C6: for all integer channel values r, g, b in [0,255],
`hexToRgb (rgbToHex r g b) = (r, g, b)`. -/
theorem hexToRgb_rgbToHex_roundtrip (r g b : Int)
    (hr : 0 ≤ r ∧ r ≤ 255) (hg : 0 ≤ g ∧ g ≤ 255) (hb : 0 ≤ b ∧ b ≤ 255) :
    hexToRgb (rgbToHex r g b) = some (r, g, b) :=
  hexToRgb_rgbToHex_aux r g b hr hg hb

/-- C6 witness at (171, 0, 255). -/
theorem hexToRgb_rgbToHex_roundtrip_witness :
    hexToRgb (rgbToHex 171 0 255) = some (171, 0, 255) :=
  hexToRgb_rgbToHex_roundtrip 171 0 255 (by norm_num) (by norm_num) (by norm_num)

/-! ### Binary32 rounding lemmas and the `combineOpacity` claim -/

theorem rhe_int (n : ℤ) : rhe (n : ℚ) = n := by
  rw [rhe, Int.floor_intCast]
  rw [if_pos (by norm_num)]

theorem rhe_le (x : ℚ) : (rhe x : ℚ) ≤ x + 1/2 := by
  have h1 : ((⌊x⌋ : ℤ) : ℚ) ≤ x := Int.floor_le x
  rw [rhe]
  split_ifs with hlt hgt hdvd
  · linarith
  · push_cast
    linarith
  · linarith
  · push_cast
    have heq : x - ⌊x⌋ = 1/2 := le_antisymm (le_of_not_lt hgt) (le_of_not_lt hlt)
    linarith

theorem rhe_nonneg (x : ℚ) (hx : 0 ≤ x) : 0 ≤ rhe x := by
  have h0 : 0 ≤ ⌊x⌋ := Int.floor_nonneg.mpr hx
  rw [rhe]
  split_ifs <;> omega

theorem rnd_zero : rnd 0 = 0 := by
  rw [rnd, if_pos rfl]

theorem rnd_nonneg (q : ℚ) (h : 0 ≤ q) : 0 ≤ rnd q := by
  rw [rnd]
  split_ifs with hz
  · exact le_refl 0
  · have hx : (0:ℚ) ≤ q / 2 ^ max (-149) (Int.log 2 |q| - 23) := by positivity
    have hr : (0:ℚ) ≤ (rhe (q / 2 ^ max (-149) (Int.log 2 |q| - 23)) : ℚ) := by
      exact_mod_cast rhe_nonneg _ hx
    exact mul_nonneg hr (by positivity)

theorem rnd_le_one (q : ℚ) (h0 : 0 ≤ q) (h1 : q ≤ 1) : rnd q ≤ 1 := by
  rw [rnd]
  split_ifs with hz
  · norm_num
  · have hq : 0 < q := lt_of_le_of_ne h0 (Ne.symm hz)
    have habs : |q| = q := abs_of_pos hq
    have hlog : Int.log 2 q ≤ 0 := by
      have h := Int.log_mono_right (b := 2) hq h1
      rwa [Int.log_one_right] at h
    set u : ℤ := max (-149) (Int.log 2 |q| - 23) with hu
    have hu23 : u ≤ -23 := by
      rw [hu, habs]
      omega
    have hpow : (0:ℚ) < 2 ^ u := by positivity
    have h2Q : (2:ℚ) ≠ 0 := by norm_num
    have hNe : ((2:ℚ) ^ (-u)) = (((2:ℤ) ^ (-u).toNat : ℤ) : ℚ) := by
      have ht : ((-u).toNat : ℤ) = -u := Int.toNat_of_nonneg (by omega)
      rw [← ht, zpow_natCast]
      push_cast
      rfl
    have hxle : q / 2 ^ u ≤ (2:ℚ) ^ (-u) := by
      rw [div_le_iff₀ hpow, ← zpow_add₀ h2Q, neg_add_cancel, zpow_zero]
      exact h1
    have hrle : (rhe (q / 2 ^ u) : ℚ) ≤ (2:ℚ) ^ (-u) + 1/2 :=
      le_trans (rhe_le _) (by linarith)
    rw [hNe] at hrle
    have h3 : (rhe (q / 2 ^ u) : ℚ) < (((2:ℤ) ^ (-u).toNat : ℤ) : ℚ) + 1 := by
      linarith
    have h4 : rhe (q / 2 ^ u) < (2:ℤ) ^ (-u).toNat + 1 := by
      exact_mod_cast h3
    have h5 : (rhe (q / 2 ^ u) : ℚ) ≤ (((2:ℤ) ^ (-u).toNat : ℤ) : ℚ) := by
      exact_mod_cast Int.lt_add_one_iff.mp h4
    calc (rhe (q / 2 ^ u) : ℚ) * 2 ^ u
        ≤ (((2:ℤ) ^ (-u).toNat : ℤ) : ℚ) * 2 ^ u :=
          mul_le_mul_of_nonneg_right h5 hpow.le
      _ = 1 := by
          rw [← hNe, ← zpow_add₀ h2Q, neg_add_cancel, zpow_zero]

theorem rnd_of_range (q : ℚ) (e : ℤ) (hq : 0 < q) (he : -126 ≤ e)
    (hle : (2:ℚ) ^ e ≤ q) (hlt : q < (2:ℚ) ^ (e + 1)) :
    rnd q = (rhe (q / 2 ^ (e - 23)) : ℚ) * 2 ^ (e - 23) := by
  have hb : 1 < (2:ℕ) := by norm_num
  have hlog1 : e ≤ Int.log 2 q := by
    refine (Int.zpow_le_iff_le_log hb hq).mp ?_
    exact_mod_cast hle
  have hlog2 : Int.log 2 q < e + 1 := by
    refine (Int.lt_zpow_iff_log_lt hb hq).mp ?_
    exact_mod_cast hlt
  have hlog : Int.log 2 q = e := by omega
  rw [rnd, if_neg hq.ne', abs_of_pos hq, hlog, max_eq_right (by omega)]

theorem rnd_one : rnd (1:ℚ) = 1 := by
  have h := rnd_of_range 1 0 one_pos (by norm_num) (by norm_num) (by norm_num)
  rw [h]
  have hx : (1:ℚ) / 2 ^ ((0:ℤ) - 23) = ((8388608 : ℤ) : ℚ) := by
    norm_num
  rw [hx, rhe_int]
  norm_num

theorem rnd_pred : rnd (67108863/67108864 : ℚ) = 1 := by
  have h := rnd_of_range (67108863/67108864) (-1) (by norm_num) (by norm_num)
    (by norm_num) (by norm_num)
  rw [h]
  have hx : (67108863/67108864 : ℚ) / 2 ^ ((-1:ℤ) - 23) = 67108863/4 := by
    norm_num
  rw [hx]
  have hf : (⌊(67108863/4 : ℚ)⌋ : ℤ) = 16777215 := by
    rw [Int.floor_eq_iff]
    norm_num
  have hr : rhe (67108863/4 : ℚ) = 16777216 := by
    rw [rhe, hf]
    rw [if_neg (by norm_num), if_pos (by norm_num)]
    norm_num
  rw [hr]
  norm_num

/-- C9 counterexample: in the program's binary32 arithmetic the claimed lower
bound `max a b` fails.  At `a = 2^-26` and `b = 0`, the subtraction
`1.0f - a` rounds (to nearest, 24-bit significand) back up to `1.0f`, so
`combineOpacity` returns `1 - 1*1 = 0`, strictly below `max a b = a`. -/
theorem combineOpacity_rounding_counterexample :
    combineOpacityF32 (1/67108864) 0 = 0 ∧
      combineOpacityF32 (1/67108864) 0 < max (1/67108864 : ℚ) 0 := by
  have h0 : combineOpacityF32 (1/67108864) 0 = 0 := by
    rw [combineOpacityF32]
    have e1 : (1:ℚ) - 1/67108864 = 67108863/67108864 := by norm_num
    have e2 : (1:ℚ) - 0 = 1 := by norm_num
    rw [e1, e2, rnd_pred, rnd_one, mul_one, rnd_one, sub_self, rnd_zero]
  refine ⟨h0, ?_⟩
  rw [h0]
  norm_num

/-- C9 amended: for a, b in [0,1] the binary32 computation of
`combineOpacity` stays in [0,1], and the exact composite `1-(1-a)*(1-b)` is
at least `max a b`; the computed float itself can round below `max a b`
(see the counterexample), so only the exact value obeys the claimed lower
bound. -/
theorem combineOpacityF32_bounds (a b : ℚ)
    (ha : 0 ≤ a ∧ a ≤ 1) (hb : 0 ≤ b ∧ b ≤ 1) :
    0 ≤ combineOpacityF32 a b ∧ combineOpacityF32 a b ≤ 1 ∧
      max a b ≤ 1 - (1 - a) * (1 - b) := by
  obtain ⟨ha0, ha1⟩ := ha
  obtain ⟨hb0, hb1⟩ := hb
  have r1a0 : 0 ≤ rnd (1 - a) := rnd_nonneg _ (by linarith)
  have r1a1 : rnd (1 - a) ≤ 1 := rnd_le_one _ (by linarith) (by linarith)
  have r1b0 : 0 ≤ rnd (1 - b) := rnd_nonneg _ (by linarith)
  have r1b1 : rnd (1 - b) ≤ 1 := rnd_le_one _ (by linarith) (by linarith)
  have hp0 : 0 ≤ rnd (1 - a) * rnd (1 - b) := mul_nonneg r1a0 r1b0
  have hp1 : rnd (1 - a) * rnd (1 - b) ≤ 1 := by nlinarith
  have hr0 : 0 ≤ rnd (rnd (1 - a) * rnd (1 - b)) := rnd_nonneg _ hp0
  have hr1 : rnd (rnd (1 - a) * rnd (1 - b)) ≤ 1 := rnd_le_one _ hp0 hp1
  rw [combineOpacityF32]
  refine ⟨rnd_nonneg _ (by linarith), rnd_le_one _ (by linarith) (by linarith), ?_⟩
  exact max_le (by nlinarith) (by nlinarith)

/-- C9 amended witness at a = 1/2, b = 3/10. -/
theorem combineOpacityF32_bounds_witness :
    0 ≤ combineOpacityF32 (1/2) (3/10) ∧ combineOpacityF32 (1/2) (3/10) ≤ 1 ∧
      max (1/2 : ℚ) (3/10) ≤ 1 - (1 - 1/2) * (1 - 3/10) :=
  combineOpacityF32_bounds (1/2) (3/10) ⟨by norm_num, by norm_num⟩
    ⟨by norm_num, by norm_num⟩

/-- C7 counterexample: `hexToRgb` does NOT fail on every wrong-length or
non-hex input.  A 5-character digit part (`"12345"`) yields `(0x12,0x34,0x5)`,
and a non-hex character after a valid prefix (`"1z34ab"`) is silently
coerced (`std::stoi` parses the longest hex prefix `"1"`). -/
theorem hexToRgb_malformed_counterexample :
    hexToRgb "12345" = some (18, 52, 5) ∧
      hexToRgb "1z34ab" = some (1, 52, 171) := by
  constructor <;> rfl

/-- C7 amended: `hexToRgb` does throw (modelled `none`) when the digit part
(after stripping an optional `'#'`) has length 0, 1, 2 or 4; other malformed
inputs (length 5, length ≥ 7, or non-hex characters after a parseable hex
prefix) are silently coerced instead of failing. -/
theorem hexToRgb_fails_bad_length (s : String)
    (h : (stripHash s.data).length = 0 ∨ (stripHash s.data).length = 1 ∨
      (stripHash s.data).length = 2 ∨ (stripHash s.data).length = 4) :
    hexToRgb s = none := by
  unfold hexToRgb hexToRgbChars
  have hnil : stoi16 [] = none := rfl
  have hne3 : (stripHash s.data).length ≠ 3 := by rcases h with h|h|h|h <;> omega
  rw [if_neg hne3]
  generalize hg : stripHash s.data = l at h
  have hsub0 : cppSubstr l 0 2 = some (l.take 2) := by
    unfold cppSubstr; simp
  rcases h with h0 | h1 | h2 | h4
  · have hle : l = [] := List.length_eq_zero.mp h0
    subst hle
    rfl
  · have hsub2 : cppSubstr l 2 2 = none := by
      unfold cppSubstr; rw [if_neg]; omega
    cases hst : stoi16 (l.take 2) <;>
      simp [hexToRgbCore, hsub0, hst, hsub2]
  · have hdrop : l.drop 2 = [] := List.drop_eq_nil_of_le (by omega)
    have hsub2 : cppSubstr l 2 2 = some [] := by
      unfold cppSubstr; rw [if_pos (by omega), hdrop]; rfl
    cases hst : stoi16 (l.take 2) <;>
      simp [hexToRgbCore, hsub0, hst, hsub2, hnil]
  · have hsub2 : cppSubstr l 2 2 = some ((l.drop 2).take 2) := by
      unfold cppSubstr; rw [if_pos (by omega)]
    have hdrop4 : l.drop 4 = [] := List.drop_eq_nil_of_le (by omega)
    have hsub4 : cppSubstr l 4 2 = some [] := by
      unfold cppSubstr; rw [if_pos (by omega), hdrop4]; rfl
    cases hst : stoi16 (l.take 2) <;> cases hst2 : stoi16 ((l.drop 2).take 2) <;>
      simp [hexToRgbCore, hsub0, hst, hsub2, hst2, hsub4, hnil]

/-- C7 amended witness: `"#abcd"` has digit part of length 4 and is rejected. -/
theorem hexToRgb_fails_bad_length_witness :
    (stripHash "#abcd".data).length = 4 ∧ hexToRgb "#abcd" = none :=
  ⟨by decide, hexToRgb_fails_bad_length "#abcd" (by decide)⟩

/-! ### Lemmas about `replaceAll` and `getSolid` -/

theorem replaceAllF_of_no_occurrence (pat rep : List Char) :
    ∀ (fuel : Nat) (l : List Char), ¬ (pat <:+: l) → replaceAllF pat rep fuel l = l := by
  intro fuel
  induction fuel with
  | zero => intro l _; cases l <;> rfl
  | succ f ih =>
    intro l h
    cases l with
    | nil => rfl
    | cons c cs =>
      rw [replaceAllF]
      have hnp : ¬(pat ≠ [] ∧ pat.isPrefixOf (c :: cs)) := by
        rintro ⟨-, hpre⟩
        exact h (List.isPrefixOf_iff_prefix.mp hpre).isInfix
      rw [if_neg hnp]
      have hcs : ¬ (pat <:+: cs) := fun hi => h (List.infix_cons_iff.mpr (Or.inr hi))
      rw [ih cs hcs]

theorem replaceAll_of_no_occurrence (pat rep : List Char) (l : List Char)
    (h : ¬ (pat <:+: l)) : replaceAll pat rep l = l :=
  replaceAllF_of_no_occurrence pat rep l.length l h

theorem string_mk_data (s : String) : String.mk s.data = s := rfl

/-! ### Theorems for the claims on `getSolid` -/

/-- C1 (code bug): on the document `<path fill-opacity="0.5" d="M0 0h8v8z"/>`
the scan finds the opacity value `0.5`, but the replacement searches for
`fill-opacity="0.500000"` (the `std::to_string` rendering), which does not
occur, so `getSolid` returns the document unchanged — the output still
contains a `fill-opacity` attribute, contradicting the claimed output
contract. -/
theorem getSolid_to_string_mismatch :
    scanRuns ("<path fill-opacity=\"0.5\" d=\"M0 0h8v8z\"/>").data = ["0.5".data] ∧
      getSolid "<path fill-opacity=\"0.5\" d=\"M0 0h8v8z\"/>" false =
        some "<path fill-opacity=\"0.5\" d=\"M0 0h8v8z\"/>" := by
  constructor <;> rfl

/-- C4 counterexample: an input with no `fill-opacity` attribute but with a
`fill="black"` attribute is NOT returned unchanged: the `fill="black"` is
stripped before the early return. -/
theorem getSolid_no_opacity_counterexample :
    scanRuns ("<path fill=\"black\" d=\"M1 1\"/>").data = [] ∧
      getSolid "<path fill=\"black\" d=\"M1 1\"/>" false = some "<path  d=\"M1 1\"/>" ∧
      ("<path  d=\"M1 1\"/>" : String) ≠ "<path fill=\"black\" d=\"M1 1\"/>" := by
  refine ⟨rfl, rfl, by decide⟩

/-- C4 amended: if the input, after removal of every literal `fill="black"`,
contains no `fill-opacity` attribute, then `getSolid` returns the input with
every `fill="black"` occurrence removed (and hence unchanged only when no
`fill="black"` was present either). -/
theorem getSolid_no_opacity (s : String) (stroke : Bool)
    (h : scanRuns (replaceAll blackPat [] s.data) = []) :
    getSolid s stroke = some (String.mk (replaceAll blackPat [] s.data)) := by
  unfold getSolid getSolidChars getSolidAfter
  rw [h]
  rfl

/-- C4 amended witness. -/
theorem getSolid_no_opacity_witness :
    getSolid "<path fill=\"black\" d=\"M1 1\"/>" false = some "<path  d=\"M1 1\"/>" := by
  have h := getSolid_no_opacity "<path fill=\"black\" d=\"M1 1\"/>" false (by decide)
  rw [h]
  rfl

/-- C10 counterexample: the input `fill-opacity=fill="black""0.500000"`
contains exactly one occurrence of the three replacement patterns (the
`fill="black"` in the middle; there is no `fill-opacity="<value>"` attribute
occurrence and no ` stroke="none"` occurrence), yet the characters of the
trailing segment `"0.500000"` — in particular `'5'`, which cannot be part of
any pattern occurrence — are destroyed: removing `fill="black"` splices
together a brand-new `fill-opacity="0.500000"` attribute, which is then
rewritten to `fill="#7f7f7f"`. -/
theorem getSolid_destroys_unmatched_chars :
    ("fill-opacity=fill=\"black\"\"0.500000\"" : String).data =
        "fill-opacity=".data ++ blackPat ++ "\"0.500000\"".data ∧
      scanRuns ("fill-opacity=fill=\"black\"\"0.500000\"").data = [] ∧
      ¬ (strokeNonePat <:+: ("fill-opacity=fill=\"black\"\"0.500000\"").data) ∧
      (∀ c ∈ "\"0.500000\"".data, c = '"' ∨ c = '0' ∨ c = '.' ∨ c = '5') ∧
      '5' ∈ "\"0.500000\"".data ∧
      getSolid "fill-opacity=fill=\"black\"\"0.500000\"" false = some "fill=\"#7f7f7f\"" ∧
      '5' ∉ ("fill=\"#7f7f7f\"" : String).data := by
  refine ⟨rfl, rfl, by decide, by decide, by decide, rfl, by decide⟩

/-- C10 amended: `getSolid` returns the input verbatim whenever the input
contains no occurrence of any of the three patterns (`fill="black"`, a
`fill-opacity` attribute, ` stroke="none"`); in general, characters outside
pattern occurrences are only guaranteed to survive when the `fill="black"`
removal cannot splice together a new `fill-opacity` attribute. -/
theorem getSolid_no_patterns_unchanged (s : String) (stroke : Bool)
    (h1 : ¬ (blackPat <:+: s.data)) (h2 : scanRuns s.data = []) :
    getSolid s stroke = some s := by
  have hA : getSolidAfter s.data stroke = some s.data := by
    unfold getSolidAfter
    rw [h2]
    rfl
  unfold getSolid getSolidChars
  rw [replaceAll_of_no_occurrence blackPat [] s.data h1, hA]
  rfl

/-- C10 amended witness. -/
theorem getSolid_no_patterns_unchanged_witness :
    getSolid "<circle r=\"5\"/>" true = some "<circle r=\"5\"/>" :=
  getSolid_no_patterns_unchanged "<circle r=\"5\"/>" true (by decide) (by decide)

/-! ### Theorems for the claim on `findNearestColor` -/

/-- Loop invariant for `fnLoop`: either no candidate ever beat the incoming
`minD` (result is the incoming `nearest`), or the result is a candidate that
beat `minD`, beats all candidates before it strictly, and is beaten by no
candidate after it. -/
theorem fnLoop_spec (t : Int × Int × Int) :
    ∀ (cs : List String) (m : Option Int) (nearest : String),
      (∀ c ∈ cs, (hexToRgb c).isSome) →
      ∃ res, fnLoop t cs m nearest = some res ∧
        ((res = nearest ∧ ∀ c ∈ cs, ltOpt (dOf t c) m = false) ∨
          (∃ pre post, cs = pre ++ res :: post ∧ ltOpt (dOf t res) m = true ∧
            (∀ c ∈ pre, dOf t res < dOf t c) ∧ (∀ c ∈ post, dOf t res ≤ dOf t c))) := by
  intro cs
  induction cs with
  | nil =>
    intro m nearest _
    exact ⟨nearest, rfl, Or.inl ⟨rfl, by simp⟩⟩
  | cons c cs' ih =>
    intro m nearest hp
    have hc : (hexToRgb c).isSome := hp c (by simp)
    obtain ⟨cr, hcr⟩ := Option.isSome_iff_exists.mp hc
    have hdc : dOf t c = distSq t cr := by unfold dOf; rw [hcr]
    have hp' : ∀ x ∈ cs', (hexToRgb x).isSome := fun x hx => hp x (by simp [hx])
    by_cases himp : ltOpt (distSq t cr) m = true
    · obtain ⟨res, hres, hcase⟩ := ih (some (distSq t cr)) c hp'
      refine ⟨res, by simp [fnLoop, hcr, himp, hres], ?_⟩
      rcases hcase with ⟨rfl, hall⟩ | ⟨pre, post, hsplit, hlt, hpre, hpost⟩
      · right
        refine ⟨[], cs', by simp, by rw [hdc]; exact himp, by simp, ?_⟩
        intro x hx
        have hthis := hall x hx
        simp only [ltOpt, decide_eq_false_iff_not, not_lt] at hthis
        rw [hdc]
        exact hthis
      · right
        refine ⟨c :: pre, post, by rw [hsplit]; rfl, ?_, ?_, hpost⟩
        · have hltv : dOf t res < distSq t cr := by
            simpa [ltOpt] using hlt
          cases m with
          | none => rfl
          | some v =>
            have : distSq t cr < v := by simpa [ltOpt] using himp
            simp only [ltOpt, decide_eq_true_eq]
            omega
        · intro x hx
          rcases List.mem_cons.mp hx with rfl | hx'
          · rw [hdc]
            simpa [ltOpt] using hlt
          · exact hpre x hx'
    · obtain ⟨res, hres, hcase⟩ := ih m nearest hp'
      refine ⟨res, by simp [fnLoop, hcr, himp, hres], ?_⟩
      rcases hcase with ⟨rfl, hall⟩ | ⟨pre, post, hsplit, hlt, hpre, hpost⟩
      · left
        refine ⟨rfl, ?_⟩
        intro x hx
        rcases List.mem_cons.mp hx with rfl | hx'
        · rw [hdc]
          simpa using himp
        · exact hall x hx'
      · right
        refine ⟨c :: pre, post, by rw [hsplit]; rfl, hlt, ?_, hpost⟩
        intro x hx
        rcases List.mem_cons.mp hx with rfl | hx'
        · cases m with
          | none => simp [ltOpt] at himp
          | some v =>
            have h1 : dOf t res < v := by simpa [ltOpt] using hlt
            have h2 : ¬ (distSq t cr < v) := by simpa [ltOpt] using himp
            rw [hdc]
            omega
        · exact hpre x hx'

/-- C3: for a parseable target and a non-empty list of parseable candidates,
`findNearestColor` returns a candidate of minimal squared RGB distance, and
every candidate strictly before it in the list has strictly larger distance
(ties resolve to the earlier candidate); concretely, for candidates
`["#000000", "#ffffff"]` and target `"#101010"` it returns `"#000000"`. -/
theorem findNearestColor_spec (target : String) (l : List String) (t : Int × Int × Int)
    (ht : hexToRgb target = some t) (hl : l ≠ [])
    (hp : ∀ c ∈ l, (hexToRgb c).isSome) :
    (∃ res pre post, findNearestColor target l = some res ∧ l = pre ++ res :: post ∧
      (∀ c ∈ l, dOf t res ≤ dOf t c) ∧ (∀ c ∈ pre, dOf t res < dOf t c)) ∧
      findNearestColor "#101010" ["#000000", "#ffffff"] = some "#000000" := by
  constructor
  · obtain ⟨c0, rest, rfl⟩ := List.exists_cons_of_ne_nil hl
    obtain ⟨res, hres, hcase⟩ := fnLoop_spec t (c0 :: rest) none c0 hp
    rcases hcase with ⟨heq, hall⟩ | ⟨pre, post, hsplit, hlt, hpre, hpost⟩
    · exact absurd (hall c0 (by simp)) (by simp [ltOpt])
    · refine ⟨res, pre, post, ?_, hsplit, ?_, hpre⟩
      · unfold findNearestColor
        rw [ht]
        exact hres
      · intro x hx
        rw [hsplit] at hx
        rcases List.mem_append.mp hx with hx' | hx'
        · exact (hpre x hx').le
        · rcases List.mem_cons.mp hx' with rfl | hx''
          · exact le_refl _
          · exact hpost x hx''
  · rfl

/-- C3 witness: the theorem applied at target `"#101010"`,
candidates `["#000000", "#ffffff"]`. -/
theorem findNearestColor_spec_witness :
    (∃ res pre post,
      findNearestColor "#101010" ["#000000", "#ffffff"] = some res ∧
      ["#000000", "#ffffff"] = pre ++ res :: post ∧
      (∀ c ∈ ["#000000", "#ffffff"], dOf (16, 16, 16) res ≤ dOf (16, 16, 16) c) ∧
      (∀ c ∈ pre, dOf (16, 16, 16) res < dOf (16, 16, 16) c)) ∧
      findNearestColor "#101010" ["#000000", "#ffffff"] = some "#000000" :=
  findNearestColor_spec "#101010" ["#000000", "#ffffff"] (16, 16, 16)
    (by rfl) (by decide) (by decide)

/-! ### Theorems for the claim on `optimizeSvg`

The invariant after the whitespace pass: every whitespace character is a
plain space and no two spaces are adjacent (`goodWs`).  `collapseWs`
establishes it, is the identity on lists satisfying it, and `replGtLt`
preserves it (it only deletes a space flanked by `'>'` and `'<'`).
`replGtLt` is idempotent because its output never contains `"> <"`. -/

theorem collapseWs_nil : collapseWs [] = [] := by
  rw [collapseWs.eq_def]

theorem collapseWs_cons (c : Char) (cs : List Char) :
    collapseWs (c :: cs) =
      if isCSpace c then ' ' :: collapseWs (cs.dropWhile isCSpace)
      else c :: collapseWs cs := by
  rw [collapseWs.eq_def]

theorem dropWhile_head_false (p : Char → Bool) :
    ∀ (l : List Char) d t, l.dropWhile p = d :: t → p d = false := by
  intro l
  induction l with
  | nil => intro d t h; simp [List.dropWhile] at h
  | cons c cs ih =>
    intro d t h
    rw [List.dropWhile_cons] at h
    by_cases hc : p c
    · rw [if_pos hc] at h
      exact ih d t h
    · rw [if_neg hc] at h
      injection h with h1 _
      subst h1
      simpa using hc

theorem collapseWs_good : ∀ l : List Char, goodWs (collapseWs l) := by
  have H : ∀ n (l : List Char), l.length ≤ n → goodWs (collapseWs l) := by
    intro n
    induction n with
    | zero =>
      intro l hl
      have : l = [] := List.length_eq_zero.mp (by omega)
      subst this
      exact ⟨by simp [collapseWs_nil], by simp [collapseWs_nil]⟩
    | succ n ih =>
      intro l hl
      cases l with
      | nil => exact ⟨by simp [collapseWs_nil], by simp [collapseWs_nil]⟩
      | cons c cs =>
        by_cases hc : isCSpace c
        · rw [collapseWs_cons, if_pos hc]
          have hlen : (cs.dropWhile isCSpace).length ≤ n := by
            have := (List.dropWhile_sublist (l := cs) isCSpace).length_le
            simp only [List.length_cons] at hl
            omega
          obtain ⟨ih1, ih2⟩ := ih (cs.dropWhile isCSpace) hlen
          refine ⟨?_, ?_⟩
          · intro x hx _
            rcases List.mem_cons.mp hx with rfl | hx'
            · rfl
            · exact ih1 x hx' (by assumption)
          · rw [List.chain'_cons']
            refine ⟨?_, ih2⟩
            intro y hy
            rintro ⟨-, rfl⟩
            cases hdw : cs.dropWhile isCSpace with
            | nil =>
              rw [hdw, collapseWs_nil] at hy
              simp at hy
            | cons d t =>
              have hd : isCSpace d = false := dropWhile_head_false isCSpace cs d t hdw
              rw [hdw, collapseWs_cons, if_neg (by simp [hd])] at hy
              simp at hy
              rw [hy] at hd
              simp [isCSpace] at hd
        · rw [collapseWs_cons, if_neg hc]
          have hlen : cs.length ≤ n := by
            simp only [List.length_cons] at hl
            omega
          obtain ⟨ih1, ih2⟩ := ih cs hlen
          refine ⟨?_, ?_⟩
          · intro x hx hxs
            rcases List.mem_cons.mp hx with rfl | hx'
            · exact absurd hxs (by simpa using hc)
            · exact ih1 x hx' hxs
          · rw [List.chain'_cons']
            refine ⟨?_, ih2⟩
            intro y hy
            rintro ⟨rfl, -⟩
            exact hc (by simp [isCSpace])
  exact fun l => H l.length l (le_refl _)

theorem collapseWs_id : ∀ l : List Char, goodWs l → collapseWs l = l := by
  have H : ∀ n (l : List Char), l.length ≤ n → goodWs l → collapseWs l = l := by
    intro n
    induction n with
    | zero =>
      intro l hl _
      have : l = [] := List.length_eq_zero.mp (by omega)
      subst this
      exact collapseWs_nil
    | succ n ih =>
      intro l hl hg
      cases l with
      | nil => exact collapseWs_nil
      | cons c cs =>
        obtain ⟨hg1, hg2⟩ := hg
        have hgcs : goodWs cs := by
          refine ⟨fun x hx => hg1 x (List.mem_cons_of_mem c hx), ?_⟩
          exact (List.chain'_cons'.mp hg2).2
        have hlen : cs.length ≤ n := by
          simp only [List.length_cons] at hl
          omega
        by_cases hc : isCSpace c
        · have hcsp : c = ' ' := hg1 c (by simp) hc
          subst hcsp
          rw [collapseWs_cons, if_pos hc]
          have hdw : cs.dropWhile isCSpace = cs := by
            cases cs with
            | nil => rfl
            | cons d t =>
              have hrel := (List.chain'_cons'.mp hg2).1 d (by rfl)
              have hd : d ≠ ' ' := fun hd => hrel ⟨rfl, hd⟩
              have hdns : isCSpace d = false := by
                by_cases hds : isCSpace d
                · exact absurd (hg1 d (by simp) hds) hd
                · simpa using hds
              rw [List.dropWhile_cons, if_neg (by simp [hdns])]
          rw [hdw, ih cs hlen hgcs]
        · rw [collapseWs_cons, if_neg hc, ih cs hlen hgcs]
  exact fun l => H l.length l (le_refl _)

theorem replGtLt_match (rest : List Char) :
    replGtLt ('>' :: ' ' :: '<' :: rest) = '>' :: '<' :: replGtLt rest := by
  rw [replGtLt]
  simp

theorem replGtLt_cons3 (a b c : Char) (rest : List Char)
    (h : ¬(a = '>' ∧ b = ' ' ∧ c = '<')) :
    replGtLt (a :: b :: c :: rest) = a :: replGtLt (b :: c :: rest) := by
  rw [replGtLt, if_neg h]

theorem replGtLt_cons_ne_gt (a : Char) (l : List Char) (ha : a ≠ '>') :
    replGtLt (a :: l) = a :: replGtLt l := by
  match l with
  | [] => rfl
  | [b] => rfl
  | b :: c :: rest => exact replGtLt_cons3 a b c rest (fun h => ha h.1)

theorem replGtLt_cons2_ne_sp (a b : Char) (l : List Char) (hb : b ≠ ' ') :
    replGtLt (a :: b :: l) = a :: replGtLt (b :: l) := by
  match l with
  | [] => rfl
  | c :: rest => exact replGtLt_cons3 a b c rest (fun h => hb h.2.1)

theorem replGtLt_cons3_ne_lt (a b c : Char) (l : List Char) (hc : c ≠ '<') :
    replGtLt (a :: b :: c :: l) = a :: replGtLt (b :: c :: l) :=
  replGtLt_cons3 a b c l (fun h => hc h.2.2)

theorem replGtLt_head : ∀ l : List Char, (replGtLt l).head? = l.head? := by
  intro l
  rcases l with _ | ⟨a, _ | ⟨b, _ | ⟨c, rest⟩⟩⟩
  · rfl
  · rfl
  · rfl
  · by_cases h : a = '>' ∧ b = ' ' ∧ c = '<'
    · obtain ⟨rfl, rfl, rfl⟩ := h
      rw [replGtLt_match]
      rfl
    · rw [replGtLt_cons3 a b c rest h]
      rfl

theorem replGtLt_mem : ∀ (l : List Char) (x : Char), x ∈ replGtLt l → x ∈ l := by
  have H : ∀ n (l : List Char), l.length ≤ n → ∀ x, x ∈ replGtLt l → x ∈ l := by
    intro n
    induction n with
    | zero =>
      intro l hl x hx
      have : l = [] := List.length_eq_zero.mp (by omega)
      subst this
      simp [replGtLt] at hx
    | succ n ih =>
      intro l hl x hx
      rcases l with _ | ⟨a, _ | ⟨b, _ | ⟨c, rest⟩⟩⟩
      · simp [replGtLt] at hx
      · simp [replGtLt] at hx
        simp [hx]
      · simp [replGtLt] at hx
        simp [hx]
      · simp only [List.length_cons] at hl
        by_cases h : a = '>' ∧ b = ' ' ∧ c = '<'
        · obtain ⟨rfl, rfl, rfl⟩ := h
          rw [replGtLt_match] at hx
          rcases List.mem_cons.mp hx with rfl | hx'
          · simp
          · rcases List.mem_cons.mp hx' with rfl | hx''
            · simp
            · have := ih rest (by omega) x hx''
              simp [this]
        · rw [replGtLt_cons3 a b c rest h] at hx
          rcases List.mem_cons.mp hx with rfl | hx'
          · simp
          · have hmem := ih (b :: c :: rest) (by simp only [List.length_cons]; omega) x hx'
            simp only [List.mem_cons] at hmem ⊢
            tauto
  exact fun l x hx => H l.length l (le_refl _) x hx

theorem replGtLt_good : ∀ l : List Char, goodWs l → goodWs (replGtLt l) := by
  have H : ∀ n (l : List Char), l.length ≤ n → goodWs l → goodWs (replGtLt l) := by
    intro n
    induction n with
    | zero =>
      intro l hl _
      have : l = [] := List.length_eq_zero.mp (by omega)
      subst this
      exact ⟨by simp [replGtLt], by simp [replGtLt]⟩
    | succ n ih =>
      intro l hl hg
      rcases l with _ | ⟨a, _ | ⟨b, _ | ⟨c, rest⟩⟩⟩
      · exact hg
      · exact hg
      · exact hg
      · simp only [List.length_cons] at hl
        obtain ⟨hg1, hg2⟩ := hg
        by_cases h : a = '>' ∧ b = ' ' ∧ c = '<'
        · obtain ⟨rfl, rfl, rfl⟩ := h
          rw [replGtLt_match]
          have hgrest : goodWs rest := by
            refine ⟨fun x hx => hg1 x (by simp [hx]), ?_⟩
            have := (List.chain'_cons'.mp hg2).2
            have := (List.chain'_cons'.mp this).2
            exact (List.chain'_cons'.mp this).2
          obtain ⟨ihg1, ihg2⟩ := ih rest (by omega) hgrest
          refine ⟨?_, ?_⟩
          · intro x hx hxs
            rcases List.mem_cons.mp hx with rfl | hx'
            · simp [isCSpace] at hxs
            · rcases List.mem_cons.mp hx' with rfl | hx''
              · simp [isCSpace] at hxs
              · exact ihg1 x hx'' hxs
          · rw [List.chain'_cons']
            refine ⟨fun y _ => by rintro ⟨hgt, -⟩; exact absurd hgt (by decide), ?_⟩
            rw [List.chain'_cons']
            refine ⟨fun y _ => by rintro ⟨hlt, -⟩; exact absurd hlt (by decide), ihg2⟩
        · rw [replGtLt_cons3 a b c rest h]
          have hgtail : goodWs (b :: c :: rest) := by
            refine ⟨fun x hx => hg1 x (List.mem_cons_of_mem a hx), ?_⟩
            exact (List.chain'_cons'.mp hg2).2
          obtain ⟨ihg1, ihg2⟩ := ih (b :: c :: rest) (by simp; omega) hgtail
          refine ⟨?_, ?_⟩
          · intro x hx hxs
            rcases List.mem_cons.mp hx with rfl | hx'
            · exact hg1 x (by simp) hxs
            · exact ihg1 x hx' hxs
          · rw [List.chain'_cons']
            refine ⟨?_, ihg2⟩
            intro y hy
            rw [replGtLt_head (b :: c :: rest)] at hy
            simp only [List.head?_cons, Option.mem_def, Option.some.injEq] at hy
            subst hy
            exact (List.chain'_cons'.mp hg2).1 b rfl
  exact fun l hg => H l.length l (le_refl _) hg

theorem replGtLt_idem : ∀ l : List Char, replGtLt (replGtLt l) = replGtLt l := by
  have H : ∀ n (l : List Char), l.length ≤ n → replGtLt (replGtLt l) = replGtLt l := by
    intro n
    induction n with
    | zero =>
      intro l hl
      have : l = [] := List.length_eq_zero.mp (by omega)
      subst this
      rfl
    | succ n ih =>
      intro l hl
      rcases l with _ | ⟨a, _ | ⟨b, _ | ⟨c, rest⟩⟩⟩
      · rfl
      · rfl
      · rfl
      · simp only [List.length_cons] at hl
        by_cases hcond : a = '>' ∧ b = ' ' ∧ c = '<'
        · obtain ⟨rfl, rfl, rfl⟩ := hcond
          rw [replGtLt_match]
          rw [replGtLt_cons2_ne_sp '>' '<' _ (by decide)]
          rw [replGtLt_cons_ne_gt '<' _ (by decide)]
          rw [ih rest (by omega)]
        · rw [replGtLt_cons3 a b c rest hcond]
          have hM := ih (b :: c :: rest) (by simp; omega)
          by_cases ha : a = '>'
          · subst ha
            obtain ⟨M', hM'⟩ : ∃ M', replGtLt (b :: c :: rest) = b :: M' := by
              have hh := replGtLt_head (b :: c :: rest)
              rcases hE : replGtLt (b :: c :: rest) with _ | ⟨x, xs⟩
              · rw [hE] at hh; simp at hh
              · rw [hE] at hh
                simp only [List.head?_cons, Option.some.injEq] at hh
                exact ⟨xs, by rw [hh]⟩
            by_cases hb : b = ' '
            · subst hb
              have hcne : c ≠ '<' := fun hcc => hcond ⟨rfl, rfl, hcc⟩
              have hMeq : replGtLt (' ' :: c :: rest) = ' ' :: replGtLt (c :: rest) :=
                replGtLt_cons_ne_gt ' ' _ (by decide)
              obtain ⟨N', hN'⟩ : ∃ N', replGtLt (c :: rest) = c :: N' := by
                have hh := replGtLt_head (c :: rest)
                rcases hE : replGtLt (c :: rest) with _ | ⟨x, xs⟩
                · rw [hE] at hh; simp at hh
                · rw [hE] at hh
                  simp only [List.head?_cons, Option.some.injEq] at hh
                  exact ⟨xs, by rw [hh]⟩
              rw [hMeq, hN']
              rw [replGtLt_cons3_ne_lt '>' ' ' c N' hcne]
              rw [replGtLt_cons_ne_gt ' ' _ (by decide)]
              have hN := ih (c :: rest) (by simp; omega)
              rw [hN'] at hN
              rw [hN]
            · rw [hM']
              rw [replGtLt_cons2_ne_sp '>' b M' hb]
              rw [hM'] at hM
              rw [hM]
          · rw [replGtLt_cons_ne_gt a _ ha]
            rw [hM]
  exact fun l => H l.length l (le_refl _)

/-- C8: `optimizeSvg` is idempotent — a second application of the
whitespace-collapsing and inter-tag-space-removal pass changes nothing. -/
theorem optimizeSvg_idem (s : String) : optimizeSvg (optimizeSvg s) = optimizeSvg s := by
  unfold optimizeSvg
  congr 1
  show replGtLt (collapseWs (replGtLt (collapseWs s.data))) =
    replGtLt (collapseWs s.data)
  rw [collapseWs_id _ (replGtLt_good _ (collapseWs_good _))]
  exact replGtLt_idem _

/-! ### Theorems for the claims on `extractDominantColors` and
`inspectImage` -/

/-- C5 counterexample: on a palette of exactly two colors whose most
frequent entry is near-white, the background IS dropped although only one
color remains afterward — contradicting "dropped only if more than one color
remains in the palette after the drop".  The pixel data realizes this
palette inside `inspectImage` itself. -/
theorem inspectImage_drop_counterexample :
    extractDominantColors ⟨3, 1, 3, [[[224, 224, 224], [224, 224, 224], [96, 96, 96]]]⟩ 5 =
        ["#e0e0e0", "#606060"] ∧
      dropWhiteStep ["#e0e0e0", "#606060"] = some ["#606060"] ∧
      ¬ (1 < (["#606060"] : List String).length) ∧
      inspectImageFromData ⟨3, 1, 3, [[[224, 224, 224], [224, 224, 224], [96, 96, 96]]]⟩ =
        some [⟨1, ["#606060"]⟩] := by
  refine ⟨by decide, by decide, by decide, by decide⟩

/-- C5 amended: the near-white most frequent color is dropped iff the
palette has more than one entry before the drop (equivalently, at least one
color — not necessarily more — remains afterward). -/
theorem dropWhiteStep_spec (first : String) (rest p2 : List String)
    (h : dropWhiteStep (first :: rest) = some p2) (hne : p2 ≠ first :: rest) :
    p2 = rest ∧ rest ≠ [] ∧
      ∃ t, hexToRgb first = some t ∧ 200 < t.1 ∧ 200 < t.2.1 ∧ 200 < t.2.2 := by
  simp only [dropWhiteStep] at h
  cases hrgb : hexToRgb first with
  | none => rw [hrgb] at h; simp at h
  | some t =>
    rw [hrgb] at h
    simp only [Option.map_some', Option.some.injEq] at h
    by_cases hcond : 200 < t.1 ∧ 200 < t.2.1 ∧ 200 < t.2.2 ∧ rest ≠ []
    · rw [if_pos hcond] at h
      exact ⟨h.symm, hcond.2.2.2, t, rfl, hcond.1, hcond.2.1, hcond.2.2.1⟩
    · rw [if_neg hcond] at h
      exact absurd h.symm hne

/-- C5 amended witness at the palette `["#ffffff", "#000000"]`. -/
theorem dropWhiteStep_spec_witness :
    (["#000000"] : List String) = ["#000000"] ∧ (["#000000"] : List String) ≠ [] ∧
      ∃ t, hexToRgb "#ffffff" = some t ∧ 200 < t.1 ∧ 200 < t.2.1 ∧ 200 < t.2.2 :=
  dropWhiteStep_spec "#ffffff" ["#000000"] ["#000000"] (by rfl) (by decide)

/-- C2 counterexample to the tie-break sentence: on a 2×1 image containing
one near-white and one black pixel (both counts 1), the scan encounters
`"#e0e0e0"` first, but the `std::map` hands the two tied entries to
`std::sort` in ascending key order, and the 2-element range is
insertion-sorted by libstdc++ (its `std::sort` on ranges shorter than 16),
which is stable — so the compiled program returns `["#000000", "#e0e0e0"]`,
whereas the claimed first-encounter order would put the first-scanned
`"#e0e0e0"` first. -/
theorem extractDominantColors_tie_counterexample :
    scanColors ⟨2, 1, 3, [[[224, 224, 224], [0, 0, 0]]]⟩ =
        [("#000000", 1), ("#e0e0e0", 1)] ∧
      extractDominantColors ⟨2, 1, 3, [[[224, 224, 224], [0, 0, 0]]]⟩ 2 =
        ["#000000", "#e0e0e0"] ∧
      encScanColors ⟨2, 1, 3, [[[224, 224, 224], [0, 0, 0]]]⟩ =
        [("#e0e0e0", 1), ("#000000", 1)] ∧
      specExtractDominant ⟨2, 1, 3, [[[224, 224, 224], [0, 0, 0]]]⟩ 2 =
        ["#e0e0e0", "#000000"] ∧
      extractDominantColors ⟨2, 1, 3, [[[224, 224, 224], [0, 0, 0]]]⟩ 2 ≠
        specExtractDominant ⟨2, 1, 3, [[[224, 224, 224], [0, 0, 0]]]⟩ 2 := by
  refine ⟨by decide, by decide, by decide, by decide, by decide⟩

/-! ### C2: properties of `extractDominantColors` -/

theorem strLtB_irrefl : ∀ a : List Char, strLtB a a = false := by
  intro a
  induction a with
  | nil => rfl
  | cons x xs ih => simp [strLtB, lt_irrefl, ih]

theorem strLtB_trans :
    ∀ a b c : List Char, strLtB a b = true → strLtB b c = true → strLtB a c = true := by
  intro a
  induction a with
  | nil =>
    intro b c hab hbc
    cases b with
    | nil => simp [strLtB] at hab
    | cons y ys =>
      cases c with
      | nil => simp [strLtB] at hbc
      | cons z zs => rfl
  | cons x xs ih =>
    intro b c hab hbc
    cases b with
    | nil => simp [strLtB] at hab
    | cons y ys =>
      cases c with
      | nil => simp [strLtB] at hbc
      | cons z zs =>
        rw [strLtB] at hab hbc ⊢
        rcases lt_trichotomy x y with hxy | hxy | hxy
        · rcases lt_trichotomy y z with hyz | hyz | hyz
          · rw [if_pos (lt_trans hxy hyz)]
          · subst hyz; rw [if_pos hxy]
          · rw [if_pos hyz, if_neg (lt_asymm hyz)] at hbc
            simp at hbc
        · subst hxy
          rw [if_neg (lt_irrefl x), if_neg (lt_irrefl x)] at hab
          rcases lt_trichotomy x z with hxz | hxz | hxz
          · rw [if_pos hxz]
          · subst hxz
            rw [if_neg (lt_irrefl x), if_neg (lt_irrefl x)] at hbc ⊢
            exact ih ys zs hab hbc
          · rw [if_pos hxz, if_neg (lt_asymm hxz)] at hbc
            simp at hbc
        · rw [if_pos hxy, if_neg (lt_asymm hxy)] at hab
          simp at hab

theorem strLtB_connex :
    ∀ a b : List Char, a ≠ b → strLtB a b = false → strLtB b a = true := by
  intro a
  induction a with
  | nil =>
    intro b hne hab
    cases b with
    | nil => exact absurd rfl hne
    | cons y ys => simp [strLtB] at hab
  | cons x xs ih =>
    intro b hne hab
    cases b with
    | nil => rfl
    | cons y ys =>
      rw [strLtB] at hab ⊢
      rcases lt_trichotomy x y with hxy | hxy | hxy
      · rw [if_pos hxy] at hab
        simp at hab
      · subst hxy
        rw [if_neg (lt_irrefl x), if_neg (lt_irrefl x)] at hab ⊢
        have hne' : xs ≠ ys := fun h => hne (by rw [h])
        exact ih ys hne' hab
      · rw [if_pos hxy]

theorem string_data_inj (s t : String) (h : s.data = t.data) : s = t := by
  cases s
  cases t
  exact congrArg String.mk h

theorem bumpColor_inv (c : String) (hc : PQuant c) :
    ∀ l, KeySorted l → (∀ p ∈ l, PQuant p.1) →
      KeySorted (bumpColor l c) ∧ (∀ p ∈ bumpColor l c, PQuant p.1) ∧
        (∀ p ∈ bumpColor l c, p.1 = c ∨ p.1 ∈ l.map Prod.fst) := by
  intro l
  induction l with
  | nil =>
    intro _ _
    refine ⟨by simp [bumpColor, KeySorted], ?_, ?_⟩
    · intro p hp
      simp only [bumpColor, List.mem_singleton] at hp
      rw [hp]
      exact hc
    · intro p hp
      simp only [bumpColor, List.mem_singleton] at hp
      rw [hp]
      exact Or.inl rfl
  | cons km t ih =>
    intro hs hq
    obtain ⟨k, m⟩ := km
    have hhead : ∀ q ∈ t, strLtB k.data q.1.data = true :=
      fun q hq' => (List.pairwise_cons.mp hs).1 q hq'
    have htail : KeySorted t := (List.pairwise_cons.mp hs).2
    have hqt : ∀ p ∈ t, PQuant p.1 := fun p hp => hq p (List.mem_cons_of_mem _ hp)
    rw [bumpColor]
    by_cases hck : c = k
    · rw [if_pos hck]
      refine ⟨List.pairwise_cons.mpr ⟨hhead, htail⟩, ?_, ?_⟩
      · intro p hp
        rcases List.mem_cons.mp hp with rfl | hp'
        · subst hck
          exact hc
        · exact hqt p hp'
      · intro p hp
        rcases List.mem_cons.mp hp with rfl | hp'
        · exact Or.inr (by simp)
        · exact Or.inr (by
            simp only [List.map_cons, List.mem_cons]
            exact Or.inr (List.mem_map_of_mem Prod.fst hp'))
    · rw [if_neg hck]
      by_cases hlt : strLtB c.data k.data = true
      · rw [if_pos hlt]
        refine ⟨?_, ?_, ?_⟩
        · refine List.pairwise_cons.mpr ⟨?_, List.pairwise_cons.mpr ⟨hhead, htail⟩⟩
          intro q hq'
          rcases List.mem_cons.mp hq' with rfl | hq''
          · exact hlt
          · exact strLtB_trans _ _ _ hlt (hhead q hq'')
        · intro p hp
          rcases List.mem_cons.mp hp with rfl | hp'
          · exact hc
          · exact hq p hp'
        · intro p hp
          rcases List.mem_cons.mp hp with rfl | hp'
          · exact Or.inl rfl
          · refine Or.inr ?_
            rcases List.mem_cons.mp hp' with rfl | hp''
            · simp
            · simp only [List.map_cons, List.mem_cons]
              exact Or.inr (List.mem_map_of_mem Prod.fst hp'')
      · rw [if_neg hlt]
        have hkc : strLtB k.data c.data = true := by
          refine strLtB_connex c.data k.data ?_ (by simpa using hlt)
          exact fun hdata => hck (string_data_inj c k hdata)
        obtain ⟨ihs, ihq, ihmem⟩ := ih htail hqt
        refine ⟨?_, ?_, ?_⟩
        · refine List.pairwise_cons.mpr ⟨?_, ihs⟩
          intro q hq'
          rcases ihmem q hq' with hqc | hqmem
          · rw [hqc]
            exact hkc
          · obtain ⟨p', hp', hfst⟩ := List.mem_map.mp hqmem
            rw [← hfst]
            exact hhead p' hp'
        · intro p hp
          rcases List.mem_cons.mp hp with rfl | hp'
          · exact hq (k, m) (by simp)
          · exact ihq p hp'
        · intro p hp
          rcases List.mem_cons.mp hp with rfl | hp'
          · exact Or.inr (by simp)
          · rcases ihmem p hp' with hpc | hpmem
            · exact Or.inl hpc
            · exact Or.inr (by
                simp only [List.map_cons, List.mem_cons]
                exact Or.inr hpmem)

theorem foldl_inv {α β : Type} (P : β → Prop) (f : β → α → β)
    (hstep : ∀ b a, P b → P (f b a)) :
    ∀ (l : List α) (b : β), P b → P (l.foldl f b) := by
  intro l
  induction l with
  | nil => intro b hb; exact hb
  | cons x xs ih => intro b hb; exact ih (f b x) (hstep b x hb)

theorem getD_mem_or_default {α : Type} (l : List α) (n : Nat) (dflt : α) :
    l.getD n dflt ∈ l ∨ l.getD n dflt = dflt := by
  induction l generalizing n with
  | nil => exact Or.inr rfl
  | cons c t ih =>
    cases n with
    | zero => exact Or.inl (by simp)
    | succ n' =>
      rcases ih n' with h | h
      · exact Or.inl (by simp [List.getD_cons_succ]; right; simpa using h)
      · exact Or.inr (by simpa [List.getD_cons_succ] using h)

theorem pix_bound (d : PixelData) (hb : boundedPixels d) (y x c : Nat) :
    pix d y x c < 256 := by
  unfold pix
  rcases getD_mem_or_default d.pixels y [] with hrow | hrow
  · rcases getD_mem_or_default (d.pixels.getD y []) x [] with hpx | hpx
    · rcases getD_mem_or_default ((d.pixels.getD y []).getD x []) c 0 with hv | hv
      · exact hb _ hrow _ hpx _ hv
      · rw [hv]; omega
    · rw [hpx]; simp
  · rw [hrow]; simp

theorem quant_props (v : Nat) (hv : v < 256) : quant v < 256 ∧ 32 ∣ quant v := by
  unfold quant
  constructor
  · have : v / 32 * 32 ≤ v := Nat.div_mul_le_self v 32
    omega
  · exact Dvd.intro (v / 32) (Nat.mul_comm 32 (v / 32))

theorem scanColors_inv (d : PixelData) (hb : boundedPixels d) :
    KeySorted (scanColors d) ∧ ∀ p ∈ scanColors d, PQuant p.1 := by
  unfold scanColors
  refine foldl_inv (fun acc => KeySorted acc ∧ ∀ p ∈ acc, PQuant p.1) _ ?_ _ []
    ⟨by simp [KeySorted], by simp⟩
  intro acc y hacc
  refine foldl_inv (fun acc2 => KeySorted acc2 ∧ ∀ p ∈ acc2, PQuant p.1) _ ?_ _ acc hacc
  intro acc2 x hacc2
  by_cases h3 : 3 ≤ d.channels
  · rw [if_pos h3]
    by_cases htr : d.channels = 4 ∧ pix d y x 3 < 128
    · rw [if_pos htr]
      exact hacc2
    · rw [if_neg htr]
      have hq : PQuant (rgbToHex (quant (pix d y x 0) : Nat) (quant (pix d y x 1) : Nat)
          (quant (pix d y x 2) : Nat)) := by
        obtain ⟨h0a, h0b⟩ := quant_props _ (pix_bound d hb y x 0)
        obtain ⟨h1a, h1b⟩ := quant_props _ (pix_bound d hb y x 1)
        obtain ⟨h2a, h2b⟩ := quant_props _ (pix_bound d hb y x 2)
        exact ⟨quant (pix d y x 0), quant (pix d y x 1), quant (pix d y x 2),
          h0a, h1a, h2a, h0b, h1b, h2b, rfl⟩
      obtain ⟨hA, hB, -⟩ := bumpColor_inv _ hq acc2 hacc2.1 hacc2.2
      exact ⟨hA, hB⟩
  · rw [if_neg h3]
    exact hacc2

theorem insByCount_perm (p : String × Nat) :
    ∀ l, (insByCount p l).Perm (p :: l) := by
  intro l
  induction l with
  | nil => exact List.Perm.refl _
  | cons q t ih =>
    rw [insByCount]
    by_cases hle : q.2 ≤ p.2
    · rw [if_pos hle]
    · rw [if_neg hle]
      exact (ih.cons q).trans (List.Perm.swap p q t)

theorem sortByCountDesc_perm : ∀ l, (sortByCountDesc l).Perm l := by
  intro l
  induction l with
  | nil => exact List.Perm.refl _
  | cons p t ih =>
    rw [sortByCountDesc]
    exact (insByCount_perm p (sortByCountDesc t)).trans (ih.cons p)

theorem insByCount_sorted (x : String × Nat) :
    ∀ l, l.Pairwise (fun p q => q.2 ≤ p.2) →
      (insByCount x l).Pairwise (fun p q => q.2 ≤ p.2) := by
  intro l
  induction l with
  | nil => intro _; simp [insByCount]
  | cons q t ih =>
    intro hl
    obtain ⟨hq, ht⟩ := List.pairwise_cons.mp hl
    rw [insByCount]
    by_cases hle : q.2 ≤ x.2
    · rw [if_pos hle]
      refine List.pairwise_cons.mpr ⟨?_, hl⟩
      intro y hy
      rcases List.mem_cons.mp hy with rfl | hy'
      · exact hle
      · exact le_trans (hq y hy') hle
    · rw [if_neg hle]
      refine List.pairwise_cons.mpr ⟨?_, ih ht⟩
      intro y hy
      rcases List.mem_cons.mp ((insByCount_perm x t).subset hy) with rfl | hy'
      · omega
      · exact hq y hy'

theorem sortByCountDesc_sorted :
    ∀ l, (sortByCountDesc l).Pairwise (fun p q => q.2 ≤ p.2) := by
  intro l
  induction l with
  | nil => simp [sortByCountDesc]
  | cons p t ih =>
    rw [sortByCountDesc]
    exact insByCount_sorted p (sortByCountDesc t) ih

/-- The implementation's deterministic sort is one conforming behaviour of
`std::sort`. -/
theorem sortByCountDesc_post (l : List (String × Nat)) :
    sortByCountPost l (sortByCountDesc l) :=
  ⟨sortByCountDesc_perm l, sortByCountDesc_sorted l⟩

/-- The program's actual output is among the outcomes `std::sort` permits. -/
theorem extractsDominant_self (d : PixelData) (n : Nat) :
    extractsDominant d n (extractDominantColors d n) :=
  ⟨sortByCountDesc (scanColors d), sortByCountDesc_post (scanColors d), rfl⟩

theorem lookup_keysorted :
    ∀ l : List (String × Nat), KeySorted l → ∀ p ∈ l, l.lookup p.1 = some p.2 := by
  intro l
  induction l with
  | nil => intro _ p hp; simp at hp
  | cons km t ih =>
    intro hs p hp
    obtain ⟨k, m⟩ := km
    obtain ⟨hhead, htail⟩ := List.pairwise_cons.mp hs
    rcases List.mem_cons.mp hp with rfl | hp'
    · simp [List.lookup]
    · have hne : k ≠ p.1 := by
        intro hkp
        have := hhead p hp'
        rw [hkp] at this
        rw [strLtB_irrefl] at this
        exact Bool.false_ne_true this
      have hne' : (p.1 == k) = false := beq_eq_false_iff_ne.mpr (Ne.symm hne)
      rw [List.lookup, hne']
      exact ih htail p hp'

/-- C2 amended: every result `extractDominantColors` may return — for any
tie order of `std::sort` allowed by the C++ standard, hence in particular the
compiled program's actual output — has at most the requested number of
colors and at most the number of distinct quantized colors; every returned
color parses back to channels that are multiples of 32; and the colors come
in non-increasing count order.  No tie-break rule holds in general, and the
counterexample shows the implemented tie order is not the first-encounter
order the spec states. -/
theorem extractsDominant_spec (d : PixelData) (n : Nat) (res : List String)
    (hb : boundedPixels d) (hres : extractsDominant d n res) :
    res.length ≤ n ∧
      res.length ≤ (scanColors d).length ∧
      (∀ c ∈ res, ∃ r g b : Nat,
        r < 256 ∧ g < 256 ∧ b < 256 ∧ 32 ∣ r ∧ 32 ∣ g ∧ 32 ∣ b ∧
        hexToRgb c = some ((r : Int), (g : Int), (b : Int))) ∧
      res.Pairwise (fun a b => countOf d b ≤ countOf d a) := by
  obtain ⟨hsort, hquant⟩ := scanColors_inv d hb
  obtain ⟨rr, ⟨hperm, hsorted⟩, rfl⟩ := hres
  refine ⟨?_, ?_, ?_, ?_⟩
  · rw [List.length_map, List.length_take]
    exact min_le_left _ _
  · rw [List.length_map, List.length_take, ← hperm.length_eq]
    exact min_le_right _ _
  · intro c hc
    obtain ⟨p, hp, rfl⟩ := List.mem_map.mp hc
    have hp2 : p ∈ scanColors d := hperm.subset (List.mem_of_mem_take hp)
    obtain ⟨r, g, b, hr, hg, hbb, hdr, hdg, hdb, henc⟩ := hquant p hp2
    refine ⟨r, g, b, hr, hg, hbb, hdr, hdg, hdb, ?_⟩
    rw [henc]
    exact hexToRgb_rgbToHex_aux (r : Int) (g : Int) (b : Int)
      ⟨Int.natCast_nonneg r, by exact_mod_cast Nat.lt_succ_iff.mp (by omega)⟩
      ⟨Int.natCast_nonneg g, by exact_mod_cast Nat.lt_succ_iff.mp (by omega)⟩
      ⟨Int.natCast_nonneg b, by exact_mod_cast Nat.lt_succ_iff.mp (by omega)⟩
  · have hPt : (rr.take n).Pairwise (fun p q => q.2 ≤ p.2) :=
      hsorted.sublist (List.take_sublist n _)
    have hcnt : ∀ p ∈ rr.take n, countOf d p.1 = p.2 := by
      intro p hp
      unfold countOf
      rw [lookup_keysorted (scanColors d) hsort p (hperm.subset (List.mem_of_mem_take hp))]
      rfl
    have hPt2 : (rr.take n).Pairwise (fun p q => countOf d q.1 ≤ countOf d p.1) := by
      refine hPt.imp_of_mem ?_
      intro a b ha hb' hr
      rw [hcnt a ha, hcnt b hb']
      exact hr
    exact List.pairwise_map.mpr hPt2

/-- C2 amended witness: the 2×1 image with one near-white and one black
pixel, requesting 2 colors; the scan counts themselves (already sorted, both
counts being 1) serve as the conforming sort. -/
theorem extractsDominant_spec_witness :
    (["#000000", "#e0e0e0"] : List String).length ≤ 2 ∧
      (["#000000", "#e0e0e0"] : List String).length ≤
        (scanColors ⟨2, 1, 3, [[[224, 224, 224], [0, 0, 0]]]⟩).length ∧
      (∀ c ∈ (["#000000", "#e0e0e0"] : List String), ∃ r g b : Nat,
        r < 256 ∧ g < 256 ∧ b < 256 ∧ 32 ∣ r ∧ 32 ∣ g ∧ 32 ∣ b ∧
        hexToRgb c = some ((r : Int), (g : Int), (b : Int))) ∧
      (["#000000", "#e0e0e0"] : List String).Pairwise (fun a b =>
        countOf ⟨2, 1, 3, [[[224, 224, 224], [0, 0, 0]]]⟩ b ≤
          countOf ⟨2, 1, 3, [[[224, 224, 224], [0, 0, 0]]]⟩ a) :=
  extractsDominant_spec ⟨2, 1, 3, [[[224, 224, 224], [0, 0, 0]]]⟩ 2
    ["#000000", "#e0e0e0"] (by unfold boundedPixels; decide)
    ⟨scanColors ⟨2, 1, 3, [[[224, 224, 224], [0, 0, 0]]]⟩,
      ⟨List.Perm.refl _, by decide⟩, by decide⟩

end Png2Svg
